import Mathlib

/-!
Verification of the dependency-graph core of cygcheck-dep against its
natural-language specification.

The Python source is embedded shallowly:

* Python dicts (insertion-ordered, `defaultdict(list)` where relevant) become
  association lists `List (String × α)` with insertion-order semantics:
  assignment updates an existing binding in place and appends a fresh binding
  at the end.
* Text lines are `List Char`; the regular expressions used by the source
  are translated to explicit character-level functions with the exact
  semantics of the Python `re` calls (in particular `re.match` anchored at
  the start of the string).
* The third-party `tarjan` library (SCC enumeration and transitive closure)
  is not part of the repository; its behaviour is modelled from the spec and
  the source comments, with the SCC output passed as an explicitly
  hypothesised argument where a claim depends on it.
-/

namespace CygcheckDep

/-! ## Association lists with Python dict semantics -/

/-- Python dict assignment d[k] = v: update the binding in place when the key
is present, append a fresh binding at the end otherwise. -/
def aset {α : Type} : List (String × α) → String → α → List (String × α)
  | [], k, v => [(k, v)]
  | (k0, v0) :: rest, k, v =>
    if k0 = k then (k, v) :: rest else (k0, v0) :: aset rest k v

/-- Python dict lookup d[k] (first binding wins; keys are unique in all the
dicts the program builds). -/
def aget? {α : Type} : List (String × α) → String → Option α
  | [], _ => none
  | (k0, v0) :: rest, k => if k0 = k then some v0 else aget? rest k

/-- Python `k in d`. -/
def hasKey {α : Type} (d : List (String × α)) (k : String) : Bool :=
  (aget? d k).isSome

/-- The dependency graph: package name to ordered dependency list. -/
abbrev Dict := List (String × List String)

/-- Python `list(d.keys())`. -/
def keysOf {α : Type} (d : List (String × α)) : List String :=
  d.map (fun e => e.1)

/-- defaultdict(list) append: `d[k].append(x)` creates the key at the end
with `[x]` when missing. -/
def dappend (d : Dict) (k : String) (x : String) : Dict :=
  match aget? d k with
  | some v => aset d k (v ++ [x])
  | none => d ++ [(k, [x])]

/-- Insert into a set modelled as a duplicate-free list (first-seen order). -/
def insertNew (l : List String) (x : String) : List String :=
  if l.contains x then l else l ++ [x]

/-- Python set union s |= set(xs). -/
def unionList (l : List String) (xs : List String) : List String :=
  xs.foldl insertNew l

/-- Python set(xs) as a duplicate-free list in first-seen order. -/
def dedup (xs : List String) : List String :=
  unionList [] xs

/-! ## Character-level translation of the regular expressions -/

/-- Python regex \s on the characters that can occur in a text line. -/
def isSpace (c : Char) : Bool :=
  c = ' ' || c = '\t' || c = '\n' || c = '\r' || c = Char.ofNat 11 || c = Char.ofNat 12

/-- Python regex \w (ASCII range, as used by the category values). -/
def isWordChar (c : Char) : Bool :=
  c.isAlphanum || c = '_'

/-- Match of the anchored pattern ^@\s+(\S+): at-sign, at least one
whitespace character, then the first maximal non-whitespace token. -/
def matchAt (line : List Char) : Option String :=
  match line with
  | '@' :: rest =>
    let sp := rest.takeWhile isSpace
    let rest2 := rest.dropWhile isSpace
    let tok := rest2.takeWhile (fun c => !(isSpace c))
    if sp.isEmpty then none
    else if tok.isEmpty then none
    else some (String.mk tok)
  | _ => none

/-- Split a whitespace-free token at its last colon, mirroring the greedy
backtracking of ^(\S+): - the regex engine keeps as many characters as
possible in the \S+ group, so the colon that terminates the group is the
last colon of the token. -/
def splitLastColon : List Char → Option (List Char × List Char)
  | [] => none
  | c :: rest =>
    match splitLastColon rest with
    | some p => some (c :: p.1, p.2)
    | none => if c = ':' then some ([], rest) else none

/-- Match of ^(\S+):\s*(.*)$ returning (keyword, value characters). -/
def matchKeyword (line : List Char) : Option (String × List Char) :=
  let t := line.takeWhile (fun c => !(isSpace c))
  let rest := line.drop t.length
  match splitLastColon t with
  | some p =>
    if p.1.isEmpty then none
    else some (String.mk p.1, (p.2 ++ rest).dropWhile isSpace)
  | none => none

/-- The literal word Base with a trailing word boundary at the current
position: used by both the anchored code-side match and the spec-side
search. -/
def baseAtHead : List Char → Bool
  | 'B' :: 'a' :: 's' :: 'e' :: rest =>
    match rest with
    | [] => true
    | c :: _ => !(isWordChar c)
  | _ => false

/-- The code-side test re.match(r'\bBase\b', value): Python re.match is
anchored at position 0, so the pattern matches exactly when the value
starts with the word Base followed by a word boundary (the leading \b is
automatic before the word character B). -/
def matchesBase (value : List Char) : Bool :=
  baseAtHead value

/-- Helper for the spec-side search: scan the value keeping track of whether
the previous character was a word character. -/
def containsWordBaseAux (prevWord : Bool) : List Char → Bool
  | [] => false
  | c :: rest =>
    ((!prevWord) && baseAtHead (c :: rest)) || containsWordBaseAux (isWordChar c) rest

/-- The spec-side predicate: the value contains the whole word Base anywhere
(re.search semantics for \bBase\b); written from the words of the spec for
comparison with the code-side anchored match. -/
def specValueContainsWordBase (value : List Char) : Bool :=
  containsWordBaseAux false value

/-- Python value.split(',') on characters. -/
def splitOnComma : List Char → List (List Char)
  | [] => [[]]
  | c :: rest =>
    let r := splitOnComma rest
    if c = ',' then [] :: r
    else
      match r with
      | [] => [[c]]
      | x :: xs => (c :: x) :: xs

/-- Python str.strip(): drop whitespace at both ends. -/
def stripChars (cs : List Char) : List Char :=
  ((cs.dropWhile isSpace).reverse.dropWhile isSpace).reverse

/-- Python [s.strip() for s in value.split(',')]. -/
def splitCommaStrip (value : List Char) : List String :=
  (splitOnComma value).map (fun cs => String.mk (stripChars cs))

/-- The characters of the sub-block tag [prev]. -/
def prevTag : List Char := ['[', 'p', 'r', 'e', 'v', ']']

/-- The characters of the sub-block tag [test]. -/
def testTag : List Char := ['[', 't', 'e', 's', 't', ']']

/-! ## The index parser (parse_setup_ini) -/

/-- The mutable state of the line loop in parse_setup_ini: the dependency
graph g, the provides graph h, the obsoletes set S, the current package
name, and the sub-block suppression flag. -/
structure ParseState where
  g : Dict
  h : Dict
  S : List String
  name : Option String
  done_with_entry : Bool

/-- Dispatch on a recognized keyword line, mirroring the if/elif chain of
parse_setup_ini.  The source reads the ambient variable name for the
category, depends2 and provides keywords; a keyword line before any @ line
would raise NameError in Python and is modelled as a no-op (no claim
concerns such input). -/
def handleKeyword (st : ParseState) (kw : String) (value : List Char) : ParseState :=
  if kw = "category" && matchesBase value then
    match st.name with
    | some nm => { st with g := dappend st.g "BASE" nm }
    | none => st
  else if kw = "depends2" && !value.isEmpty then
    match st.name with
    | some nm => { st with g := aset st.g nm (splitCommaStrip value) }
    | none => st
  else if kw = "provides" && !value.isEmpty then
    match st.name with
    | some nm => { st with h := aset st.h nm (splitCommaStrip value) }
    | none => st
  else if kw = "obsoletes" && !value.isEmpty then
    { st with S := unionList st.S (splitCommaStrip value) }
  else st

/-- One iteration of the line loop of parse_setup_ini. -/
def processLine (st : ParseState) (line : List Char) : ParseState :=
  let st1 :=
    match matchAt line with
    | some nm => { st with g := aset st.g nm [], name := some nm, done_with_entry := false }
    | none => st
  if st1.done_with_entry then st1
  else if prevTag.isPrefixOf line || testTag.isPrefixOf line then
    { st1 with done_with_entry := true }
  else
    match matchKeyword line with
    | some kv => handleKeyword st1 kv.1 kv.2
    | none => st1

/-- The initial state of the line loop. -/
def initState : ParseState := ⟨[], [], [], none, false⟩

/-- The state after reading all lines of the index. -/
def parseState (lines : List (List Char)) : ParseState :=
  lines.foldl processLine initState

/-- The provides-resolution pass at the end of parse_setup_ini: for every
provider p in h, replace every occurrence of the first provided name
h[p][0] in every dependency list by p.  Providers are processed in
insertion order. -/
def resolveProvides (g : Dict) (h : Dict) : Dict :=
  h.foldl
    (fun g0 pr =>
      g0.map (fun e => (e.1, e.2.map (fun x => if x = pr.2.headD "" then pr.1 else x))))
    g

/-- parse_setup_ini: the dependency graph (with provides resolved) and the
obsoletes set. -/
def parse_setup_ini (lines : List (List Char)) : Dict × List String :=
  let st := parseState lines
  (resolveProvides st.g st.h, st.S)

end CygcheckDep

namespace CygcheckDep

/-! ## Remaining engine functions of the source -/

/-- The reverse adjacency defaultdict h of the function reverse: for every
entry p of g and every q in its dependency list, append p to h[q]. -/
def revAdj (g : Dict) : Dict :=
  g.foldl (fun acc e => e.2.foldl (fun acc2 q => dappend acc2 q e.1) acc) ([] : Dict)

/-- reverse: build the reverse adjacency defaultdict h and restrict it to
the vertex list V (Python dict comprehension over V, defaulting to []). -/
def reverse (g : Dict) (V : List String) : Dict :=
  V.foldl (fun acc p => aset acc p ((aget? (revAdj g) p).getD [])) []

/-- find_missing_deps: dependencies of each package that are not in I. -/
def find_missing_deps (g : Dict) (I : List String) : Dict :=
  g.foldl
    (fun m e => e.2.foldl (fun m2 q => if I.contains q then m2 else dappend m2 e.1 q) m)
    []

/-- find_unknown_pkgs: installed packages that are not a key of g. -/
def find_unknown_pkgs (g : Dict) (I : List String) : List String :=
  I.filter (fun p => !(hasKey g p))

/-! ## Working-graph construction (main, lines 207-224) -/

/-- The structures main builds before dispatching a query. -/
structure BuildResult where
  all_pkgs_graph : Dict
  inst : List String
  inst_plus_base : List String
  g : Dict

/-- Take the value of the defaultdict at p, inserting an empty binding at
the end when the key is missing (the side effect of reading
all_pkgs_graph[p] in the obsoletes-extension loop). -/
def dgetDefault (d : Dict) (p : String) : List String × Dict :=
  match aget? d p with
  | some v => (v, d)
  | none => ([], d ++ [(p, [])])

/-- One iteration of the obsoletes-extension loop:
set_inst |= set(all_pkgs_graph[p]) & obs, with the defaultdict side
effect on the graph. -/
def extStep (S : List String) (acc : Dict × List String) (p : String) : Dict × List String :=
  let vd := dgetDefault acc.1 p
  (vd.2, unionList acc.2 (vd.1.filter (fun q => S.contains q)))

/-- Installed mode: extend the installed set by obsoleted direct
dependencies of installed packages, append BASE, and restrict the graph to
the extended vertex list. -/
def buildInstalled (pr : Dict × List String) (installed : List String) : BuildResult :=
  let res := installed.foldl (extStep pr.2) (pr.1, dedup installed)
  let inst := res.2
  let ipb := inst ++ ["BASE"]
  let g := res.1.filter (fun e => ipb.contains e.1)
  ⟨res.1, inst, ipb, g⟩

/-- All-packages mode: the whole graph; inst is the key list with the first
occurrence of BASE removed (Python list.remove; the source raises
ValueError when BASE is absent, a case no claim exercises past this
point). -/
def buildAll (pr : Dict × List String) : BuildResult :=
  let ipb := keysOf pr.1
  ⟨pr.1, ipb.erase "BASE", ipb, pr.1⟩

/-! ## The query dispatch (main, lines 230-259) -/

/-- String comparison by code points, as Python compares str. -/
def charListLe : List Char → List Char → Bool
  | [], _ => true
  | _ :: _, [] => false
  | a :: as, b :: bs =>
    if a.val < b.val then true
    else if b.val < a.val then false
    else charListLe as bs

/-- Python a <= b on strings. -/
def strLe (a b : String) : Bool :=
  charListLe a.toList b.toList

/-- Insertion into a sorted list, for sorted(). -/
def insertSorted (x : String) : List String → List String
  | [] => [x]
  | y :: ys => if strLe x y then x :: y :: ys else y :: insertSorted x ys

/-- Python sorted() on a list of package names. -/
def sortStr (l : List String) : List String :=
  l.foldr insertSorted []

/-- The not-installed check of main line 234: the query fails with the
"not installed or not known" diagnostic exactly when the target is absent
from inst. -/
def notFoundCheck (inst : List String) (pkg : String) : Bool :=
  !(inst.contains pkg)

/-- Direct requires: sorted(g[package]). -/
def query_requires (br : BuildResult) (p : String) : List String :=
  sortStr ((aget? br.g p).getD [])

/-- Direct needs: sorted(rev_g[package]). -/
def query_needs (br : BuildResult) (p : String) : List String :=
  sortStr ((aget? (reverse br.g br.inst_plus_base) p).getD [])

/-- Leaves: installed packages whose reverse-graph entry is empty, sorted. -/
def query_leaves (br : BuildResult) : List String :=
  sortStr (br.inst.filter (fun p =>
    ((aget? (reverse br.g br.inst_plus_base) p).getD []).isEmpty))

/-! ## Transitive closure (modelled from the spec)

The source calls tarjan.tc.tc, a third-party function that is not part of
this repository. -/

/-- Modelled from the spec: look up the successors of one reached vertex,
failing like the KeyError of the library when the vertex has no entry. -/
def tcStep (g : Dict) (acc : Except String (List String)) (v : String) :
    Except String (List String) :=
  match acc with
  | .error e => .error e
  | .ok s =>
    match aget? g v with
    | none => .error v
    | some succs => .ok (unionList s succs)

/-- Modelled from the spec: one expansion step of the reachable set used by
the transitive closure of tarjan.tc.tc. -/
def expandOnce (g : Dict) (cur : List String) : Except String (List String) :=
  cur.foldl (tcStep g) (.ok cur)

/-- Modelled from the spec: iterate the expansion until the fuel runs out
(the fuel used below always suffices for the closure to stabilize). -/
def tcIter (g : Dict) : Nat → Except String (List String) → Except String (List String)
  | 0, acc => acc
  | n + 1, acc =>
    match acc with
    | .error e => .error e
    | .ok cur => tcIter g n (expandOnce g cur)

/-- Modelled from the spec: the set of vertices reachable from p via one or
more edges, or the KeyError vertex; tarjan.tc.tc projected at one vertex. -/
def tcFrom (g : Dict) (p : String) : Except String (List String) :=
  match aget? g p with
  | none => .error p
  | some succs => tcIter g g.length (.ok succs)

/-- Modelled from the spec: accumulate the closure of one vertex into the
result dict, propagating a KeyError. -/
def tcAccStep (g : Dict) (acc : Except String Dict) (k : String) : Except String Dict :=
  match acc with
  | .error e => .error e
  | .ok res =>
    match tcFrom g k with
    | .error e => .error e
    | .ok l => .ok (aset res k l)

/-- Modelled from the spec: tarjan.tc.tc - the closure of every vertex of
the graph, or the first KeyError encountered. -/
def tc (g : Dict) : Except String Dict :=
  (keysOf g).foldl (tcAccStep g) (.ok [])

/-- True on a successful Except result. -/
def exceptOk {α : Type} : Except String α → Bool
  | .ok _ => true
  | .error _ => false

/-- Recursive requires: sorted(tc(g)[package]) guarded by the KeyError
handler of main lines 246-250. -/
def query_Requires (br : BuildResult) (p : String) : Except String (List String) :=
  match tc br.g with
  | .error e => .error e
  | .ok h => .ok (sortStr ((aget? h p).getD []))

/-- Recursive needs: sorted(tc(rev_g)[package]) (no handler in the source). -/
def query_Needs (br : BuildResult) (p : String) : Except String (List String) :=
  match tc (reverse br.g br.inst_plus_base) with
  | .error e => .error e
  | .ok h => .ok (sortStr ((aget? h p).getD []))

/-! ## find_islands (main algorithmic content of the islands query)

The SCC enumeration tarjan.tarjan is third-party; the spec describes its
output as the strongly-connected components in reverse topological order.
find_islands takes that output as the argument sccs; the claim theorem
hypothesises exactly the spec-documented properties of that output. -/

/-- Python enumerate starting at i. -/
def enumFrom {α : Type} (i : Nat) : List α → List (Nat × α)
  | [] => []
  | x :: xs => (i, x) :: enumFrom (i + 1) xs

/-- The dependency list of v in g (Python g[v]; every v the islands loop
visits is a key of g under the claim hypotheses, so the default is never
taken on the inputs the claim is about). -/
def adjOf (g : Dict) (v : String) : List String :=
  (aget? g v).getD []

/-- The scc_ind map: for each vertex, the index of its component (last
write wins, as in the Python loop). -/
def buildSccInd (sccs : List (List String)) : List (String × Nat) :=
  (enumFrom 0 sccs).foldl
    (fun m ic => ic.2.foldl (fun m2 v => aset m2 v ic.1) m)
    []

/-- One unmarking step: is_island[scc_ind[w]] = False when scc_ind[w] < i. -/
def unmarkStep (ind : List (String × Nat)) (i : Nat) (isl : List Bool) (w : String) : List Bool :=
  match aget? ind w with
  | some j => if j < i then isl.set j false else isl
  | none => isl

/-- find_islands with the SCC enumeration supplied as an argument: mark the
components of size > 1, unmark every earlier component that receives an
edge from a later one, return the survivors. -/
def find_islands (g : Dict) (sccs : List (List String)) : List (List String) :=
  let ind := buildSccInd sccs
  let init : List Bool := sccs.map (fun c => decide (1 < c.length))
  let final :=
    (enumFrom 0 sccs).foldl
      (fun isl ic => ic.2.foldl (fun isl2 v => (adjOf g v).foldl (unmarkStep ind ic.1) isl2) isl)
      init
  (enumFrom 0 sccs).filterMap (fun ic => if final.getD ic.1 false then some ic.2 else none)

/-- The specified island condition: no edge of g enters the component c
from a vertex outside c. -/
def noIncomingCross (g : Dict) (c : List String) : Bool :=
  (keysOf g).all (fun u => c.contains u || (adjOf g u).all (fun w => !(c.contains w)))

/-! ## Reachability (used to state that components are SCCs) -/

/-- One round of successor expansion ignoring missing vertices. -/
def expandD (g : Dict) (cur : List String) : List String :=
  cur.foldl (fun s v => unionList s (adjOf g v)) cur

/-- Iterated expansion. -/
def iterExpand (g : Dict) : Nat → List String → List String
  | 0, cur => cur
  | n + 1, cur => iterExpand g n (expandD g cur)

/-- A bound on the number of vertices mentioned anywhere in g. -/
def sizeBound (g : Dict) : Nat :=
  g.foldl (fun n e => n + 1 + e.2.length) 1

/-- The vertices reachable from u by zero or more edges. -/
def reachSet (g : Dict) (u : String) : List String :=
  iterExpand g (sizeBound g) [u]

/-- u reaches v by zero or more edges. -/
def reachB (g : Dict) (u v : String) : Bool :=
  (reachSet g u).contains v

/-- u and v lie in the same strongly-connected component of g. -/
def sameSCC (g : Dict) (u v : String) : Bool :=
  reachB g u v && reachB g v u

end CygcheckDep

namespace CygcheckDep

/-- Every package name stored in a value of acc is a key of g. -/
def valsHaveKeys (acc : Dict) (g : Dict) : Prop :=
  ∀ k l y, aget? acc k = some l → y ∈ l → hasKey g y = true

/-- Every dependency stored anywhere in g is itself a key of g. -/
def closedGraph (g : Dict) : Prop :=
  ∀ k l y, aget? g k = some l → y ∈ l → hasKey g y = true

/-- The condition under which one unmarking step sets index j to false:
scc_ind[w] = j and j < i. -/
def unmarkHits (ind : List (String × Nat)) (i j : Nat) (w : String) : Bool :=
  match aget? ind w with
  | some j0 => decide (j0 < i) && decide (j0 = j)
  | none => false

/-! ## Concrete inputs used by the claim theorems -/

/-- The index of the worked example of the spec: A requires B, B has
category Base and no dependencies. -/
def exL7 : List (List Char) :=
  ["@ A".toList, "depends2: B".toList, "@ B".toList, "category: Base".toList]

/-- An index in which installed p depends on the obsoleted q and q has no
record of its own. -/
def exL2 : List (List Char) :=
  ["@ p".toList, "depends2: q".toList, "@ r".toList, "obsoletes: q".toList]

/-- The same index with a record for q added. -/
def exL2w : List (List Char) :=
  ["@ p".toList, "depends2: q".toList, "@ q".toList, "@ r".toList, "obsoletes: q".toList]

/-- An index whose only category line carries the value Devel Base. -/
def exL4 : List (List Char) :=
  ["@ a".toList, "category: Devel Base".toList]

/-- An index with one installed package of category Base. -/
def exL5 : List (List Char) :=
  ["@ b".toList, "category: Base".toList]

/-- An index where p provides v while the package named v itself provides w,
and a third package depends on w. -/
def exL8 : List (List Char) :=
  ["@ p".toList, "provides: v".toList, "@ v".toList, "provides: w".toList,
   "@ a".toList, "depends2: w".toList]

/-- A two-vertex cycle plus an isolated vertex, used to instantiate the
island theorem. -/
def exG6 : Dict := [("X", ["Y"]), ("Y", ["X"]), ("W", [])]

/-- The SCC enumeration of exG6 in reverse topological order. -/
def exSccs6 : List (List String) := [["Y", "X"], ["W"]]

/-! ## Basic lemmas about the dict operations -/

theorem contains_iff_mem (l : List String) (x : String) :
    l.contains x = true ↔ x ∈ l :=
  List.elem_iff

theorem aget?_aset {α : Type} (d : List (String × α)) (k : String) (v : α) (q : String) :
    aget? (aset d k v) q = if q = k then some v else aget? d q := by
  induction d with
  | nil =>
    simp only [aset, aget?]
    by_cases hq : q = k
    · simp [hq]
    · have h1 : ¬ k = q := fun hh => hq hh.symm
      simp [hq, h1]
  | cons e rest ih =>
    obtain ⟨k0, v0⟩ := e
    simp only [aset]
    by_cases h : k0 = k
    · simp only [h, if_pos rfl]
      simp only [aget?]
      by_cases hq : q = k
      · simp [hq, h.symm ▸ hq]
      · have h1 : ¬ k = q := fun hh => hq hh.symm
        have h2 : ¬ k0 = q := fun hh => hq (h ▸ hh).symm
        simp [hq, h1, h2, h]
    · simp only [if_neg h]
      simp only [aget?, ih]
      by_cases hq : q = k
      · have h2 : ¬ k0 = q := fun hh => h (hq ▸ hh)
        simp [hq, h2, h]
      · simp [hq]

theorem aget?_append {α : Type} (d1 d2 : List (String × α)) (k : String) :
    aget? (d1 ++ d2) k =
      match aget? d1 k with
      | some v => some v
      | none => aget? d2 k := by
  induction d1 with
  | nil => simp [aget?]
  | cons e rest ih =>
    by_cases h : e.1 = k <;> simp [aget?, h, ih]

theorem aget?_dappend (d : Dict) (k : String) (x : String) (q : String) :
    aget? (dappend d k x) q =
      if q = k then some (((aget? d k).getD []) ++ [x]) else aget? d q := by
  unfold dappend
  cases h : aget? d k with
  | some v =>
    rw [aget?_aset]
    by_cases hq : q = k <;> simp [hq, h]
  | none =>
    rw [aget?_append]
    by_cases hq : q = k
    · subst hq
      simp [h, aget?]
    · simp only [hq, if_false, aget?]
      have : ¬ k = q := fun hh => hq hh.symm
      simp only [this, if_false]
      cases aget? d q <;> simp

theorem aget?_filterKeys (d : Dict) (p : String → Bool) (k : String) :
    aget? (d.filter (fun e => p e.1)) k =
      if p k then aget? d k else none := by
  induction d with
  | nil => simp [aget?]
  | cons e rest ih =>
    by_cases hk : e.1 = k
    · subst hk
      cases hp : p e.1 <;> simp [List.filter, hp, aget?, ih]
    · cases hp : p e.1 <;> simp [List.filter, hp, aget?, hk, ih]

theorem aget?_mapVals (d : Dict) (F : List String → List String) (k : String) :
    aget? (d.map (fun e => (e.1, F e.2))) k = (aget? d k).map F := by
  induction d with
  | nil => simp [aget?]
  | cons e rest ih =>
    by_cases hk : e.1 = k <;> simp [aget?, hk, ih]

theorem hasKey_mem_keysOf {α : Type} (d : List (String × α)) (k : String) :
    hasKey d k = true ↔ k ∈ keysOf d := by
  induction d with
  | nil => simp [hasKey, aget?, keysOf]
  | cons e rest ih =>
    by_cases hk : e.1 = k
    · subst hk
      simp [hasKey, aget?, keysOf]
    · simp [hasKey, aget?, hk, keysOf, Ne.symm hk] at ih ⊢
      exact ih

theorem mem_insertNew (l : List String) (y x : String) :
    x ∈ insertNew l y ↔ x ∈ l ∨ x = y := by
  unfold insertNew
  by_cases hy : y ∈ l
  · rw [if_pos ((contains_iff_mem l y).mpr hy)]
    constructor
    · exact Or.inl
    · rintro (h | h)
      · exact h
      · exact h ▸ hy
  · have hc : ¬ l.contains y = true := fun hh => hy ((contains_iff_mem l y).mp hh)
    rw [if_neg hc]
    simp [List.mem_append]

theorem mem_unionList (xs l : List String) (x : String) :
    x ∈ unionList l xs ↔ x ∈ l ∨ x ∈ xs := by
  induction xs generalizing l with
  | nil => simp [unionList]
  | cons y ys ih =>
    unfold unionList at ih ⊢
    simp only [List.foldl_cons]
    rw [ih, mem_insertNew]
    constructor
    · rintro ((h | h) | h)
      · exact Or.inl h
      · exact Or.inr (by simp [h])
      · exact Or.inr (by simp [h])
    · rintro (h | h)
      · exact Or.inl (Or.inl h)
      · rcases List.mem_cons.mp h with h | h
        · exact Or.inl (Or.inr h)
        · exact Or.inr h

theorem mem_dedup (xs : List String) (x : String) :
    x ∈ dedup xs ↔ x ∈ xs := by
  unfold dedup
  rw [mem_unionList]
  simp

end CygcheckDep

namespace CygcheckDep

/-! ## The obsoletes-extension fold -/

theorem dgetDefault_fst (d : Dict) (p : String) :
    (dgetDefault d p).1 = (aget? d p).getD [] := by
  unfold dgetDefault
  cases h : aget? d p <;> simp

theorem aget?_dgetDefault (d : Dict) (p q : String) :
    aget? (dgetDefault d p).2 q =
      match aget? d q with
      | some v => some v
      | none => if q = p then some [] else none := by
  unfold dgetDefault
  cases h : aget? d p with
  | some v =>
    cases hq : aget? d q with
    | some w => simp [hq]
    | none =>
      have hqp : ¬ q = p := by
        intro hh
        rw [hh, h] at hq
        cases hq
      simp [hq, hqp]
  | none =>
    simp only [h]
    rw [aget?_append]
    cases hq : aget? d q with
    | some w => simp
    | none =>
      by_cases hqp : q = p
      · subst hqp
        simp [aget?]
      · have : ¬ p = q := fun hh => hqp hh.symm
        simp [aget?, this, hqp]

theorem dgetDefault_getD (d : Dict) (p q : String) :
    (aget? (dgetDefault d p).2 q).getD [] = (aget? d q).getD [] := by
  rw [aget?_dgetDefault]
  cases hq : aget? d q with
  | some v => simp
  | none =>
    by_cases hqp : q = p <;> simp [hqp]

theorem ext_fold_graph (S : List String) (l : List String) :
    ∀ (d : Dict) (si : List String) (k : String),
      aget? (l.foldl (extStep S) (d, si)).1 k =
        match aget? d k with
        | some v => some v
        | none => if k ∈ l then some [] else none := by
  induction l with
  | nil =>
    intro d si k
    simp only [List.foldl_nil]
    cases aget? d k <;> simp
  | cons p rest ih =>
    intro d si k
    simp only [List.foldl_cons]
    have hstep : (extStep S (d, si) p).1 = (dgetDefault d p).2 := rfl
    have hpair : extStep S (d, si) p =
        ((dgetDefault d p).2, (extStep S (d, si) p).2) := by
      rw [← hstep]
    rw [hpair, ih]
    rw [aget?_dgetDefault]
    cases hk : aget? d k with
    | some v => simp
    | none =>
      by_cases hkp : k = p
      · simp [hkp, List.mem_cons]
      · simp [hkp, List.mem_cons]

theorem ext_fold_inst (S : List String) (l : List String) :
    ∀ (d : Dict) (si : List String) (x : String),
      x ∈ (l.foldl (extStep S) (d, si)).2 ↔
        x ∈ si ∨ ∃ p, p ∈ l ∧ x ∈ (aget? d p).getD [] ∧ x ∈ S := by
  induction l with
  | nil =>
    intro d si x
    simp
  | cons p rest ih =>
    intro d si x
    simp only [List.foldl_cons]
    have hpair : extStep S (d, si) p =
        ((dgetDefault d p).2, unionList si (((dgetDefault d p).1).filter (fun q => S.contains q))) := rfl
    rw [hpair, ih]
    rw [mem_unionList]
    have hval : ∀ q : String,
        (aget? (dgetDefault d p).2 q).getD [] = (aget? d q).getD [] :=
      fun q => dgetDefault_getD d p q
    have hfil : ∀ y : String,
        y ∈ (((dgetDefault d p).1).filter (fun q => S.contains q)) ↔
          y ∈ (aget? d p).getD [] ∧ y ∈ S := by
      intro y
      rw [List.mem_filter, dgetDefault_fst, contains_iff_mem]
    constructor
    · rintro ((hsi | hadd) | ⟨q, hq, hx, hS⟩)
      · exact Or.inl hsi
      · rcases (hfil x).mp hadd with ⟨hx, hS⟩
        exact Or.inr ⟨p, List.mem_cons_self p rest, hx, hS⟩
      · rw [hval q] at hx
        exact Or.inr ⟨q, List.mem_cons_of_mem p hq, hx, hS⟩
    · rintro (hsi | ⟨q, hq, hx, hS⟩)
      · exact Or.inl (Or.inl hsi)
      · rcases List.mem_cons.mp hq with hq | hq
        · subst hq
          exact Or.inl (Or.inr ((hfil x).mpr ⟨hx, hS⟩))
        · refine Or.inr ⟨q, hq, ?_, hS⟩
          rw [hval q]
          exact hx

/-! ## Characterizations of the built structures -/

theorem buildInstalled_inst_eq (pr : Dict × List String) (installed : List String) :
    (buildInstalled pr installed).inst =
      (installed.foldl (extStep pr.2) (pr.1, dedup installed)).2 := rfl

theorem buildInstalled_allg_eq (pr : Dict × List String) (installed : List String) :
    (buildInstalled pr installed).all_pkgs_graph =
      (installed.foldl (extStep pr.2) (pr.1, dedup installed)).1 := rfl

theorem buildInstalled_ipb_eq (pr : Dict × List String) (installed : List String) :
    (buildInstalled pr installed).inst_plus_base =
      (buildInstalled pr installed).inst ++ ["BASE"] := rfl

theorem buildInstalled_g_eq (pr : Dict × List String) (installed : List String) :
    (buildInstalled pr installed).g =
      (buildInstalled pr installed).all_pkgs_graph.filter
        (fun e => (buildInstalled pr installed).inst_plus_base.contains e.1) := rfl

theorem mem_buildInstalled_inst (pr : Dict × List String) (installed : List String) (x : String) :
    x ∈ (buildInstalled pr installed).inst ↔
      x ∈ installed ∨ ∃ p, p ∈ installed ∧ x ∈ (aget? pr.1 p).getD [] ∧ x ∈ pr.2 := by
  rw [buildInstalled_inst_eq, ext_fold_inst, mem_dedup]

theorem aget?_buildInstalled_allg (pr : Dict × List String) (installed : List String) (k : String) :
    aget? (buildInstalled pr installed).all_pkgs_graph k =
      match aget? pr.1 k with
      | some v => some v
      | none => if k ∈ installed then some [] else none := by
  rw [buildInstalled_allg_eq, ext_fold_graph]

theorem aget?_buildInstalled_g (pr : Dict × List String) (installed : List String) (k : String) :
    aget? (buildInstalled pr installed).g k =
      if k ∈ (buildInstalled pr installed).inst_plus_base
      then aget? (buildInstalled pr installed).all_pkgs_graph k
      else none := by
  rw [buildInstalled_g_eq, aget?_filterKeys]
  by_cases hk : k ∈ (buildInstalled pr installed).inst_plus_base
  · rw [if_pos ((contains_iff_mem _ k).mpr hk), if_pos hk]
  · rw [if_neg (fun hh => hk ((contains_iff_mem _ k).mp hh)), if_neg hk]

theorem aget?_foldl_aset (V : List String) (f : String → List String) :
    ∀ (acc : Dict) (k : String),
      aget? (V.foldl (fun a p => aset a p (f p)) acc) k =
        if k ∈ V then some (f k) else aget? acc k := by
  induction V with
  | nil =>
    intro acc k
    simp
  | cons p rest ih =>
    intro acc k
    simp only [List.foldl_cons]
    rw [ih]
    by_cases hk : k ∈ rest
    · simp [hk, List.mem_cons]
    · simp only [hk, if_false]
      rw [aget?_aset]
      by_cases hkp : k = p
      · simp [hkp, List.mem_cons]
      · simp [hkp, hk, List.mem_cons]

theorem aget?_reverse (g : Dict) (V : List String) (k : String) :
    aget? (reverse g V) k =
      if k ∈ V then some ((aget? (revAdj g) k).getD []) else none := by
  unfold reverse
  rw [aget?_foldl_aset]
  by_cases hk : k ∈ V <;> simp [hk, aget?]

theorem hasKey_reverse (g : Dict) (V : List String) (k : String) :
    hasKey (reverse g V) k = true ↔ k ∈ V := by
  unfold hasKey
  rw [aget?_reverse]
  by_cases hk : k ∈ V <;> simp [hk]

end CygcheckDep

namespace CygcheckDep

/-! ## Values of the reverse graph are keys of the forward graph -/

theorem entry_hasKey {α : Type} (d : List (String × α)) (e : String × α) (he : e ∈ d) :
    hasKey d e.1 = true := by
  induction d with
  | nil => cases he
  | cons f rest ih =>
    rcases List.mem_cons.mp he with h | h
    · subst h
      simp [hasKey, aget?]
    · by_cases hf : f.1 = e.1
      · simp [hasKey, aget?, hf]
      · simp only [hasKey, aget?, hf, if_false]
        exact ih h

theorem mem_val_dappend (d : Dict) (q x k : String) (l : List String) (y : String)
    (h : aget? (dappend d q x) k = some l) (hy : y ∈ l) :
    (∃ lo, aget? d k = some lo ∧ y ∈ lo) ∨ y = x := by
  rw [aget?_dappend] at h
  by_cases hk : k = q
  · rw [if_pos hk] at h
    injection h with h
    subst h
    rcases List.mem_append.mp hy with hmem | hmem
    · subst hk
      cases ho : aget? d k with
      | some lo =>
        rw [ho] at hmem
        exact Or.inl ⟨lo, rfl, by simpa using hmem⟩
      | none =>
        rw [ho] at hmem
        simp at hmem
    · exact Or.inr (by simpa using hmem)
  · rw [if_neg hk] at h
    exact Or.inl ⟨l, h, hy⟩

theorem valsHaveKeys_dappend (acc g : Dict) (q p : String)
    (hp : hasKey g p = true) (hacc : valsHaveKeys acc g) :
    valsHaveKeys (dappend acc q p) g := by
  intro k l y h hy
  rcases mem_val_dappend acc q p k l y h hy with ⟨lo, hlo, hylo⟩ | hyx
  · exact hacc k lo y hlo hylo
  · exact hyx ▸ hp

theorem valsHaveKeys_inner (g : Dict) (p : String) (hp : hasKey g p = true) :
    ∀ (qs : List String) (acc : Dict), valsHaveKeys acc g →
      valsHaveKeys (qs.foldl (fun a q => dappend a q p) acc) g := by
  intro qs
  induction qs with
  | nil =>
    intro acc h
    exact h
  | cons q rest ih =>
    intro acc h
    exact ih (dappend acc q p) (valsHaveKeys_dappend acc g q p hp h)

theorem valsHaveKeys_revAdj (g : Dict) : valsHaveKeys (revAdj g) g := by
  have main : ∀ (l : Dict) (acc : Dict), (∀ e ∈ l, hasKey g e.1 = true) →
      valsHaveKeys acc g →
      valsHaveKeys
        (l.foldl (fun acc e => e.2.foldl (fun acc2 q => dappend acc2 q e.1) acc) acc) g := by
    intro l
    induction l with
    | nil =>
      intro acc _ h
      exact h
    | cons e rest ih =>
      intro acc hl h
      simp only [List.foldl_cons]
      apply ih
      · intro f hf
        exact hl f (List.mem_cons_of_mem e hf)
      · exact valsHaveKeys_inner g e.1 (hl e (List.mem_cons_self e rest)) e.2 acc h
  apply main g [] (fun e he => entry_hasKey g e he)
  intro k l y h hy
  simp [aget?] at h

theorem reverse_vals_keys (g : Dict) (V : List String) (k : String) (l : List String)
    (y : String) (h : aget? (reverse g V) k = some l) (hy : y ∈ l) :
    hasKey g y = true := by
  rw [aget?_reverse] at h
  by_cases hk : k ∈ V
  · rw [if_pos hk] at h
    injection h with h
    subst h
    cases hadj : aget? (revAdj g) k with
    | some lo =>
      rw [hadj] at hy
      exact valsHaveKeys_revAdj g k lo y hadj (by simpa using hy)
    | none =>
      rw [hadj] at hy
      simp at hy
  · rw [if_neg hk] at h
    cases h

/-! ## Success of the transitive closure on closed graphs -/

theorem tc_fold_ok (g : Dict) (hg : closedGraph g) :
    ∀ (l : List String) (s : List String),
      (∀ v ∈ l, hasKey g v = true) → (∀ y ∈ s, hasKey g y = true) →
      ∃ t, l.foldl (tcStep g) (Except.ok s) = Except.ok t ∧ ∀ y ∈ t, hasKey g y = true := by
  intro l
  induction l with
  | nil =>
    intro s _ hs
    exact ⟨s, rfl, hs⟩
  | cons v rest ih =>
    intro s hl hs
    have hv : hasKey g v = true := hl v (List.mem_cons_self v rest)
    unfold hasKey at hv
    cases hav : aget? g v with
    | none =>
      rw [hav] at hv
      cases hv
    | some succs =>
      have hstep : tcStep g (Except.ok s) v = Except.ok (unionList s succs) := by
        unfold tcStep
        rw [hav]
      simp only [List.foldl_cons, hstep]
      apply ih
      · intro w hw
        exact hl w (List.mem_cons_of_mem v hw)
      · intro y hy
        rcases (mem_unionList succs s y).mp hy with h | h
        · exact hs y h
        · exact hg v succs y hav h

theorem expandOnce_ok (g : Dict) (hg : closedGraph g) (cur : List String)
    (hcur : ∀ v ∈ cur, hasKey g v = true) :
    ∃ t, expandOnce g cur = Except.ok t ∧ ∀ y ∈ t, hasKey g y = true :=
  tc_fold_ok g hg cur cur hcur hcur

theorem tcIter_ok (g : Dict) (hg : closedGraph g) :
    ∀ (n : Nat) (cur : List String), (∀ v ∈ cur, hasKey g v = true) →
      ∃ t, tcIter g n (Except.ok cur) = Except.ok t := by
  intro n
  induction n with
  | zero =>
    intro cur _
    exact ⟨cur, rfl⟩
  | succ m ih =>
    intro cur hcur
    rcases expandOnce_ok g hg cur hcur with ⟨t, ht, htk⟩
    simp only [tcIter, ht]
    exact ih t htk

theorem tcFrom_ok (g : Dict) (hg : closedGraph g) (p : String) (hp : hasKey g p = true) :
    ∃ t, tcFrom g p = Except.ok t := by
  unfold hasKey at hp
  cases hap : aget? g p with
  | none =>
    rw [hap] at hp
    cases hp
  | some succs =>
    unfold tcFrom
    rw [hap]
    exact tcIter_ok g hg g.length succs (fun v hv => hg p succs v hap hv)

theorem tc_ok (g : Dict) (hg : closedGraph g) :
    ∃ d, tc g = Except.ok d := by
  unfold tc
  have main : ∀ (l : List String) (acc : Dict), (∀ k ∈ l, hasKey g k = true) →
      ∃ d, l.foldl (tcAccStep g) (Except.ok acc) = Except.ok d := by
    intro l
    induction l with
    | nil =>
      intro acc _
      exact ⟨acc, rfl⟩
    | cons k rest ih =>
      intro acc hl
      rcases tcFrom_ok g hg k (hl k (List.mem_cons_self k rest)) with ⟨t, ht⟩
      have hstep : tcAccStep g (Except.ok acc) k = Except.ok (aset acc k t) := by
        unfold tcAccStep
        rw [ht]
      simp only [List.foldl_cons, hstep]
      exact ih (aset acc k t) (fun q hq => hl q (List.mem_cons_of_mem k hq))
  exact main (keysOf g) [] (fun k hk => (hasKey_mem_keysOf g k).mpr hk)

end CygcheckDep

namespace CygcheckDep

/-! ## Lemmas for the island computation -/

theorem bool_eq_of_iff {a b : Bool} (h : a = true ↔ b = true) : a = b := by
  cases a <;> cases b <;> simp_all

theorem getD_set_false (l : List Bool) (i j : Nat) :
    (l.set i false).getD j false = (l.getD j false && !(decide (i = j))) := by
  simp only [List.getD_eq_getElem?_getD, List.getElem?_set]
  rcases eq_or_ne i j with h | h
  · subst h
    by_cases hl : i < l.length
    · simp [hl]
    · simp only [hl, if_true, if_false]
      rw [List.getElem?_eq_none (by omega)]
      simp
  · simp [h, Ne.symm h]

theorem foldl_and_char {β : Type} (P : β → Nat → Bool) (s : List Bool → β → List Bool)
    (hs : ∀ isl b j, (s isl b).getD j false = (isl.getD j false && P b j)) :
    ∀ (l : List β) (isl : List Bool) (j : Nat),
      (l.foldl s isl).getD j false = (isl.getD j false && l.all (fun b => P b j)) := by
  intro l
  induction l with
  | nil =>
    intro isl j
    simp
  | cons b rest ih =>
    intro isl j
    simp only [List.foldl_cons, List.all_cons]
    rw [ih, hs]
    cases isl.getD j false <;> cases P b j <;> simp

theorem mem_enumFrom {α : Type} (l : List α) :
    ∀ (k i : Nat) (c : α), (i, c) ∈ enumFrom k l ↔ (k ≤ i ∧ l[i - k]? = some c) := by
  induction l with
  | nil =>
    intro k i c
    simp [enumFrom]
  | cons x xs ih =>
    intro k i c
    simp only [enumFrom, List.mem_cons]
    constructor
    · rintro (h | h)
      · have h1 : i = k := congrArg Prod.fst h
        have h2 : c = x := congrArg Prod.snd h
        subst h1
        subst h2
        simp
      · rcases (ih (k + 1) i c).mp h with ⟨hle, hg⟩
        refine ⟨by omega, ?_⟩
        have hik : i - k = (i - (k + 1)) + 1 := by omega
        rw [hik]
        simpa using hg
    · rintro ⟨hle, hg⟩
      rcases Nat.eq_or_lt_of_le hle with heq | hlt
      · subst heq
        simp only [Nat.sub_self] at hg
        simp only [List.getElem?_cons_zero] at hg
        injection hg with hg
        exact Or.inl (by rw [hg])
      · right
        apply (ih (k + 1) i c).mpr
        refine ⟨by omega, ?_⟩
        have hik : i - k = (i - (k + 1)) + 1 := by omega
        rw [hik] at hg
        simpa using hg

theorem enumFrom_functional {α : Type} (l : List α) (k i : Nat) (c c2 : α)
    (h1 : (i, c) ∈ enumFrom k l) (h2 : (i, c2) ∈ enumFrom k l) : c = c2 := by
  rcases (mem_enumFrom l k i c).mp h1 with ⟨-, g1⟩
  rcases (mem_enumFrom l k i c2).mp h2 with ⟨-, g2⟩
  rw [g1] at g2
  injection g2

end CygcheckDep

namespace CygcheckDep

theorem aget?_foldl_aset_const {α : Type} (c : List String) (i : α) :
    ∀ (m : List (String × α)) (v : String),
      aget? (c.foldl (fun m2 u => aset m2 u i) m) v =
        if v ∈ c then some i else aget? m v := by
  induction c with
  | nil =>
    intro m v
    simp
  | cons u rest ih =>
    intro m v
    simp only [List.foldl_cons]
    rw [ih]
    by_cases hv : v ∈ rest
    · simp [hv, List.mem_cons]
    · simp only [hv, if_false]
      rw [aget?_aset]
      by_cases hvu : v = u
      · simp [hvu, List.mem_cons]
      · simp [hvu, hv, List.mem_cons]

theorem sccFold_notmem (E : List (Nat × List String)) :
    ∀ (m : List (String × Nat)) (v : String), (∀ ic ∈ E, v ∉ ic.2) →
      aget? (E.foldl (fun m ic => ic.2.foldl (fun m2 u => aset m2 u ic.1) m) m) v =
        aget? m v := by
  induction E with
  | nil =>
    intro m v _
    rfl
  | cons ic rest ih =>
    intro m v hv
    simp only [List.foldl_cons]
    rw [ih _ v (fun jc hjc => hv jc (List.mem_cons_of_mem ic hjc))]
    rw [aget?_foldl_aset_const]
    rw [if_neg (hv ic (List.mem_cons_self ic rest))]

theorem sccFold_eq (E : List (Nat × List String))
    (hdisj : ∀ ic ∈ E, ∀ jc ∈ E, ic.1 ≠ jc.1 → ∀ v ∈ ic.2, v ∉ jc.2) :
    ∀ (m : List (String × Nat)) (j : Nat) (c : List String) (v : String),
      (j, c) ∈ E → v ∈ c →
      aget? (E.foldl (fun m ic => ic.2.foldl (fun m2 u => aset m2 u ic.1) m) m) v =
        some j := by
  induction E with
  | nil =>
    intro m j c v h _
    cases h
  | cons ic rest ih =>
    intro m j c v hjc hv
    simp only [List.foldl_cons]
    rcases List.mem_cons.mp hjc with hhead | htail
    · by_cases hrest : ∃ jc, jc ∈ rest ∧ v ∈ jc.2
      · rcases hrest with ⟨jc, hjcr, hvjc⟩
        have hne : ¬ jc.1 ≠ j := by
          intro hne
          have h1 : (j, c) ∈ ic :: rest := hjc
          have h2 : jc ∈ ic :: rest := List.mem_cons_of_mem ic hjcr
          exact hdisj jc h2 (j, c) h1 hne v hvjc hv
        have hj : jc.1 = j := not_not.mp (by simpa using hne)
        have : (jc.1, jc.2) ∈ rest := by simpa using hjcr
        rw [hj] at this
        exact ih (fun a ha b hb => hdisj a (List.mem_cons_of_mem ic ha)
          b (List.mem_cons_of_mem ic hb)) _ j jc.2 v this hvjc
      · push_neg at hrest
        rw [sccFold_notmem rest _ v (fun jc hjc2 => hrest jc hjc2)]
        rw [aget?_foldl_aset_const]
        have hvic : v ∈ ic.2 := by
          have : ic.2 = c := congrArg Prod.snd hhead.symm
          rw [this]
          exact hv
        rw [if_pos hvic]
        have : ic.1 = j := congrArg Prod.fst hhead.symm
        rw [this]
    · exact ih (fun a ha b hb => hdisj a (List.mem_cons_of_mem ic ha)
        b (List.mem_cons_of_mem ic hb)) _ j c v htail hv

theorem sccFold_inv (E : List (Nat × List String)) :
    ∀ (m : List (String × Nat)) (v : String) (j : Nat),
      aget? (E.foldl (fun m ic => ic.2.foldl (fun m2 u => aset m2 u ic.1) m) m) v = some j →
      (∃ c, (j, c) ∈ E ∧ v ∈ c) ∨ aget? m v = some j := by
  induction E with
  | nil =>
    intro m v j h
    exact Or.inr h
  | cons ic rest ih =>
    intro m v j h
    simp only [List.foldl_cons] at h
    rcases ih _ v j h with ⟨c, hc, hv⟩ | h2
    · exact Or.inl ⟨c, List.mem_cons_of_mem ic hc, hv⟩
    · rw [aget?_foldl_aset_const] at h2
      by_cases hv : v ∈ ic.2
      · rw [if_pos hv] at h2
        injection h2 with h2
        refine Or.inl ⟨ic.2, ?_, hv⟩
        have : (j, ic.2) = ic := by
          rw [← h2]
        rw [this]
        exact List.mem_cons_self ic rest
      · rw [if_neg hv] at h2
        exact Or.inr h2

theorem aget?_buildSccInd (sccs : List (List String))
    (hdisj : ∀ ic ∈ enumFrom 0 sccs, ∀ jc ∈ enumFrom 0 sccs,
      ic.1 ≠ jc.1 → ∀ v ∈ ic.2, v ∉ jc.2)
    (j : Nat) (c : List String) (v : String)
    (hjc : (j, c) ∈ enumFrom 0 sccs) (hv : v ∈ c) :
    aget? (buildSccInd sccs) v = some j :=
  sccFold_eq (enumFrom 0 sccs) hdisj [] j c v hjc hv

theorem buildSccInd_inv (sccs : List (List String)) (v : String) (j : Nat)
    (h : aget? (buildSccInd sccs) v = some j) :
    ∃ c, (j, c) ∈ enumFrom 0 sccs ∧ v ∈ c := by
  rcases sccFold_inv (enumFrom 0 sccs) [] v j h with hh | hh
  · exact hh
  · cases hh

end CygcheckDep

namespace CygcheckDep

theorem unmarkHits_iff (ind : List (String × Nat)) (i j : Nat) (w : String) :
    unmarkHits ind i j w = true ↔ (aget? ind w = some j ∧ j < i) := by
  unfold unmarkHits
  cases h : aget? ind w with
  | none => simp
  | some j0 =>
    simp only [Bool.and_eq_true, decide_eq_true_eq]
    constructor
    · rintro ⟨h1, h2⟩
      subst h2
      exact ⟨rfl, h1⟩
    · rintro ⟨h1, h2⟩
      injection h1 with h1
      constructor
      · omega
      · exact h1

theorem unmarkStep_getD (ind : List (String × Nat)) (i : Nat) (isl : List Bool)
    (w : String) (j : Nat) :
    (unmarkStep ind i isl w).getD j false = (isl.getD j false && !(unmarkHits ind i j w)) := by
  cases h : aget? ind w with
  | none => simp [unmarkStep, unmarkHits, h]
  | some j0 =>
    by_cases hj0 : j0 < i
    · simp only [unmarkStep, unmarkHits, h]
      rw [if_pos hj0, getD_set_false]
      simp [hj0]
    · simp only [unmarkStep, unmarkHits, h]
      rw [if_neg hj0]
      simp [hj0]

theorem adjFold_getD (g : Dict) (ind : List (String × Nat)) (i : Nat) (v : String)
    (isl : List Bool) (j : Nat) :
    ((adjOf g v).foldl (unmarkStep ind i) isl).getD j false =
      (isl.getD j false && (adjOf g v).all (fun w => !(unmarkHits ind i j w))) :=
  foldl_and_char (fun w j => !(unmarkHits ind i j w)) (unmarkStep ind i)
    (fun isl w j => unmarkStep_getD ind i isl w j) (adjOf g v) isl j

theorem compFold_getD (g : Dict) (ind : List (String × Nat)) (i : Nat) (c : List String)
    (isl : List Bool) (j : Nat) :
    (c.foldl (fun isl2 v => (adjOf g v).foldl (unmarkStep ind i) isl2) isl).getD j false =
      (isl.getD j false &&
        c.all (fun v => (adjOf g v).all (fun w => !(unmarkHits ind i j w)))) :=
  foldl_and_char (fun v j => (adjOf g v).all (fun w => !(unmarkHits ind i j w)))
    (fun isl2 v => (adjOf g v).foldl (unmarkStep ind i) isl2)
    (fun isl v j => adjFold_getD g ind i v isl j) c isl j

theorem islFold_getD (g : Dict) (ind : List (String × Nat))
    (E : List (Nat × List String)) (init : List Bool) (j : Nat) :
    (E.foldl
        (fun isl ic => ic.2.foldl (fun isl2 v => (adjOf g v).foldl (unmarkStep ind ic.1) isl2) isl)
        init).getD j false =
      (init.getD j false &&
        E.all (fun ic => ic.2.all (fun v =>
          (adjOf g v).all (fun w => !(unmarkHits ind ic.1 j w))))) :=
  foldl_and_char
    (fun ic j => ic.2.all (fun v => (adjOf g v).all (fun w => !(unmarkHits ind ic.1 j w))))
    (fun isl ic => ic.2.foldl (fun isl2 v => (adjOf g v).foldl (unmarkStep ind ic.1) isl2) isl)
    (fun isl ic j => compFold_getD g ind ic.1 ic.2 isl j) E init j

theorem filterMap_enumFrom_filter {α : Type} (l : List α) :
    ∀ (k : Nat) (q : Nat → Bool) (f : α → Bool),
      (∀ i c, (i, c) ∈ enumFrom k l → q i = f c) →
      (enumFrom k l).filterMap (fun ic => if q ic.1 then some ic.2 else none) = l.filter f := by
  induction l with
  | nil =>
    intro k q f _
    rfl
  | cons x xs ih =>
    intro k q f h
    have hx : q k = f x := h k x (List.mem_cons_self _ _)
    simp only [enumFrom, List.filterMap_cons, List.filter_cons]
    have hrest := ih (k + 1) q f (fun i c hic => h i c (List.mem_cons_of_mem _ hic))
    cases hq : q k with
    | true =>
      rw [← hx, hq]
      simp only [if_true]
      rw [hrest]
    | false =>
      rw [← hx, hq]
      simp only [if_false, Bool.false_eq_true]
      rw [hrest]

theorem init_getD (sccs : List (List String)) (j : Nat) (c : List String)
    (hj : (j, c) ∈ enumFrom 0 sccs) :
    (sccs.map (fun c => decide (1 < c.length))).getD j false = decide (1 < c.length) := by
  rcases (mem_enumFrom sccs 0 j c).mp hj with ⟨-, hg⟩
  simp only [Nat.sub_zero] at hg
  rw [List.getD_eq_getElem?_getD, List.getElem?_map, hg]
  rfl

end CygcheckDep

namespace CygcheckDep

/-- C6: for every Working Graph, given the SCC enumeration that the external
tarjan library supplies (modelled from the spec: a partition of the vertex
set into strongly-connected components listed in reverse topological order),
the islands query returns exactly the components of size greater than one
that receive no edge from any vertex in a different component. -/
theorem c6_islands (g : Dict) (sccs : List (List String))
    (hdisj : ∀ ic ∈ enumFrom 0 sccs, ∀ jc ∈ enumFrom 0 sccs,
      ic.1 ≠ jc.1 → ∀ v ∈ ic.2, v ∉ jc.2)
    (hkeys : ∀ ic ∈ enumFrom 0 sccs, ∀ v ∈ ic.2, hasKey g v = true)
    (hcover : ∀ u ∈ keysOf g, ∃ ic ∈ enumFrom 0 sccs, u ∈ ic.2)
    (hcoverT : ∀ u ∈ keysOf g, ∀ w ∈ adjOf g u, ∃ ic ∈ enumFrom 0 sccs, w ∈ ic.2)
    (hscc : ∀ ic ∈ enumFrom 0 sccs, ∀ u ∈ ic.2, ∀ v ∈ ic.2, sameSCC g u v = true)
    (hsep : ∀ ic ∈ enumFrom 0 sccs, ∀ jc ∈ enumFrom 0 sccs, ic.1 ≠ jc.1 →
      ∀ u ∈ ic.2, ∀ v ∈ jc.2, sameSCC g u v = false)
    (hrevtopo : ∀ ic ∈ enumFrom 0 sccs, ∀ v ∈ ic.2, ∀ w ∈ adjOf g v,
      ∀ jc ∈ enumFrom 0 sccs, w ∈ jc.2 → jc.1 ≠ ic.1 → jc.1 < ic.1) :
    find_islands g sccs =
      sccs.filter (fun c => decide (1 < c.length) && noIncomingCross g c) := by
  show (enumFrom 0 sccs).filterMap
      (fun ic =>
        if ((enumFrom 0 sccs).foldl
              (fun isl ic2 => ic2.2.foldl
                (fun isl2 v => (adjOf g v).foldl (unmarkStep (buildSccInd sccs) ic2.1) isl2) isl)
              (sccs.map (fun c => decide (1 < c.length)))).getD ic.1 false
        then some ic.2 else none) =
    sccs.filter (fun c => decide (1 < c.length) && noIncomingCross g c)
  have hmain : ∀ (j : Nat) (c : List String), (j, c) ∈ enumFrom 0 sccs →
      ((enumFrom 0 sccs).foldl
          (fun isl ic2 => ic2.2.foldl
            (fun isl2 v => (adjOf g v).foldl (unmarkStep (buildSccInd sccs) ic2.1) isl2) isl)
          (sccs.map (fun c => decide (1 < c.length)))).getD j false =
        (decide (1 < c.length) && noIncomingCross g c) := by
    intro j c hjc
    rw [islFold_getD]
    rw [init_getD sccs j c hjc]
    congr 1
    apply bool_eq_of_iff
    constructor
    · intro hall
      rw [List.all_eq_true] at hall
      unfold noIncomingCross
      rw [List.all_eq_true]
      intro u hu
      rw [Bool.or_eq_true]
      by_cases huc : u ∈ c
      · exact Or.inl ((contains_iff_mem c u).mpr huc)
      · have hforall : ∀ w ∈ adjOf g u, w ∉ c := by
          intro w hw hwc
          rcases hcover u hu with ⟨ic, hicE, huic⟩
          have hij : ic.1 ≠ j := by
            intro heq
            have h1 : (ic.1, ic.2) ∈ enumFrom 0 sccs := by simpa using hicE
            rw [heq] at h1
            have h2 : ic.2 = c := enumFrom_functional sccs 0 j ic.2 c h1 hjc
            rw [h2] at huic
            exact huc huic
          have hlt : j < ic.1 :=
            hrevtopo ic hicE u huic w hw (j, c) hjc hwc (fun hh => hij hh.symm)
          have h1 := hall ic hicE
          rw [List.all_eq_true] at h1
          have h2 := h1 u huic
          rw [List.all_eq_true] at h2
          have h3 := h2 w hw
          have hhit : unmarkHits (buildSccInd sccs) ic.1 j w = true := by
            rw [unmarkHits_iff]
            exact ⟨aget?_buildSccInd sccs hdisj j c w hjc hwc, hlt⟩
          rw [hhit] at h3
          cases h3
        right
        rw [List.all_eq_true]
        intro w hw
        rw [Bool.not_eq_true']
        cases hc : c.contains w with
        | false => rfl
        | true => exact absurd ((contains_iff_mem c w).mp hc) (hforall w hw)
    · intro hnic
      rw [List.all_eq_true]
      intro ic hicE
      rw [List.all_eq_true]
      intro v hvic
      rw [List.all_eq_true]
      intro w hw
      rw [Bool.not_eq_true']
      rw [Bool.eq_false_iff]
      intro hhit
      rcases (unmarkHits_iff _ _ _ _).mp hhit with ⟨hind, hlt⟩
      rcases buildSccInd_inv sccs w j hind with ⟨c2, hc2E, hwc2⟩
      have hc2c : c2 = c := enumFrom_functional sccs 0 j c2 c hc2E hjc
      rw [hc2c] at hwc2
      have hvkey : hasKey g v = true := hkeys ic hicE v hvic
      have hvmem : v ∈ keysOf g := (hasKey_mem_keysOf g v).mp hvkey
      unfold noIncomingCross at hnic
      rw [List.all_eq_true] at hnic
      have h1 := hnic v hvmem
      rw [Bool.or_eq_true] at h1
      rcases h1 with h1 | h1
      · have hvc : v ∈ c := (contains_iff_mem c v).mp h1
        by_cases hij : ic.1 = j
        · omega
        · exact absurd hvc (hdisj ic hicE (j, c) hjc hij v hvic)
      · rw [List.all_eq_true] at h1
        have h2 := h1 w hw
        rw [(contains_iff_mem c w).mpr hwc2] at h2
        cases h2

  exact filterMap_enumFrom_filter sccs 0 _ _ hmain
end CygcheckDep

namespace CygcheckDep

/-! ## Shared characterizations used by the claim theorems -/

theorem hasKey_allg_of_installed (lines : List (List Char)) (installed : List String)
    (p : String) (hp : p ∈ installed) :
    hasKey (buildInstalled (parse_setup_ini lines) installed).all_pkgs_graph p = true := by
  unfold hasKey
  rw [aget?_buildInstalled_allg]
  cases h : aget? (parse_setup_ini lines).1 p with
  | some v => simp
  | none => simp [hp]

theorem mem_find_unknown (lines : List (List Char)) (installed : List String) (x : String) :
    x ∈ find_unknown_pkgs (buildInstalled (parse_setup_ini lines) installed).g
          (buildInstalled (parse_setup_ini lines) installed).inst ↔
      (x ∈ (buildInstalled (parse_setup_ini lines) installed).inst ∧
        hasKey (buildInstalled (parse_setup_ini lines) installed).all_pkgs_graph x = false) := by
  unfold find_unknown_pkgs
  rw [List.mem_filter]
  have hkeyiff : ∀ hin : x ∈ (buildInstalled (parse_setup_ini lines) installed).inst,
      hasKey (buildInstalled (parse_setup_ini lines) installed).g x =
        hasKey (buildInstalled (parse_setup_ini lines) installed).all_pkgs_graph x := by
    intro hin
    have hipb : x ∈ (buildInstalled (parse_setup_ini lines) installed).inst_plus_base := by
      rw [buildInstalled_ipb_eq]
      exact List.mem_append.mpr (Or.inl hin)
    unfold hasKey
    rw [aget?_buildInstalled_g, if_pos hipb]
  constructor
  · rintro ⟨hin, hkey⟩
    rw [Bool.not_eq_true'] at hkey
    rw [hkeyiff hin] at hkey
    exact ⟨hin, hkey⟩
  · rintro ⟨hin, hkey⟩
    refine ⟨hin, ?_⟩
    rw [Bool.not_eq_true', hkeyiff hin]
    exact hkey

theorem notFoundCheck_iff (inst : List String) (pkg : String) :
    notFoundCheck inst pkg = true ↔ pkg ∉ inst := by
  unfold notFoundCheck
  rw [Bool.not_eq_true']
  constructor
  · intro h hmem
    rw [(contains_iff_mem inst pkg).mpr hmem] at h
    cases h
  · intro h
    cases hc : inst.contains pkg with
    | false => rfl
    | true => exact absurd ((contains_iff_mem inst pkg).mp hc) h

/-! ## Claim theorems -/

/-- C1 (amended): the unknown component of the broken report equals the set
of members of the extended installed set that lack a key in the dependency
graph as it stands after the obsoletes-extension pass; because that pass
inserts every originally installed package as a key (defaultdict side
effect), an originally installed package never appears under unknown,
whether or not it has a record in the index. -/
theorem c1_unknown (lines : List (List Char)) (installed : List String) :
    (∀ x, x ∈ find_unknown_pkgs (buildInstalled (parse_setup_ini lines) installed).g
            (buildInstalled (parse_setup_ini lines) installed).inst ↔
          (x ∈ (buildInstalled (parse_setup_ini lines) installed).inst ∧
            hasKey (buildInstalled (parse_setup_ini lines) installed).all_pkgs_graph x = false)) ∧
    (∀ p, p ∈ installed →
      p ∉ find_unknown_pkgs (buildInstalled (parse_setup_ini lines) installed).g
            (buildInstalled (parse_setup_ini lines) installed).inst) := by
  constructor
  · exact fun x => mem_find_unknown lines installed x
  · intro p hp hmem
    rcases (mem_find_unknown lines installed p).mp hmem with ⟨-, hkey⟩
    rw [hasKey_allg_of_installed lines installed p hp] at hkey
    cases hkey

/-- C1 witness: an installed package with no record in the index is not
reported as unknown. -/
theorem c1_witness :
    "W" ∉ find_unknown_pkgs (buildInstalled (parse_setup_ini []) ["W"]).g
            (buildInstalled (parse_setup_ini []) ["W"]).inst :=
  (c1_unknown [] ["W"]).2 "W" (by decide)

/-- C1 counterexample: with an empty index and installed list [W], the
package W is installed and absent from the parsed dependency graph, yet the
unknown list is empty - the claim demands that W appear in it. -/
theorem c1_counterexample :
    hasKey (parse_setup_ini []).1 "W" = false ∧
    "W" ∈ (buildInstalled (parse_setup_ini []) ["W"]).inst ∧
    find_unknown_pkgs (buildInstalled (parse_setup_ini []) ["W"]).g
      (buildInstalled (parse_setup_ini []) ["W"]).inst = [] := by
  decide

/-- C2 (amended): if installed p depends on the obsoleted name q, then q is
added to the installed set used for Working-Graph construction, and - for a
q that is not independently installed - q stays out of the unknown list of
the broken report exactly when q has a record of its own in the index: a
record keeps q out, and the absence of a record puts q into the unknown
list. -/
theorem c2_obsoletes (lines : List (List Char)) (installed : List String) (p q : String)
    (hp : p ∈ installed)
    (hdep : q ∈ (aget? (parse_setup_ini lines).1 p).getD [])
    (hobs : q ∈ (parse_setup_ini lines).2) :
    q ∈ (buildInstalled (parse_setup_ini lines) installed).inst ∧
    (hasKey (parse_setup_ini lines).1 q = true →
      q ∉ find_unknown_pkgs (buildInstalled (parse_setup_ini lines) installed).g
            (buildInstalled (parse_setup_ini lines) installed).inst) ∧
    (q ∉ installed → hasKey (parse_setup_ini lines).1 q = false →
      q ∈ find_unknown_pkgs (buildInstalled (parse_setup_ini lines) installed).g
            (buildInstalled (parse_setup_ini lines) installed).inst) := by
  have hinst : q ∈ (buildInstalled (parse_setup_ini lines) installed).inst :=
    (mem_buildInstalled_inst (parse_setup_ini lines) installed q).mpr
      (Or.inr ⟨p, hp, hdep, hobs⟩)
  refine ⟨hinst, ?_, ?_⟩
  · intro hkey hmem
    rcases (mem_find_unknown lines installed q).mp hmem with ⟨-, hfalse⟩
    have htrue : hasKey (buildInstalled (parse_setup_ini lines) installed).all_pkgs_graph q
        = true := by
      unfold hasKey at hkey ⊢
      rw [aget?_buildInstalled_allg]
      cases h : aget? (parse_setup_ini lines).1 q with
      | some v => simp
      | none =>
        rw [h] at hkey
        cases hkey
    rw [htrue] at hfalse
    cases hfalse
  · intro hninst hnokey
    have hnone : aget? (parse_setup_ini lines).1 q = none := by
      unfold hasKey at hnokey
      cases h : aget? (parse_setup_ini lines).1 q with
      | none => rfl
      | some v =>
        rw [h] at hnokey
        cases hnokey
    apply (mem_find_unknown lines installed q).mpr
    refine ⟨hinst, ?_⟩
    unfold hasKey
    rw [aget?_buildInstalled_allg, hnone]
    simp [hninst]

/-- C2 witness: on the index where q has a record, q joins the installed
set and is not reported unknown; on the index where q has no record and is
not installed, q is reported unknown. -/
theorem c2_witness :
    ("q" ∈ (buildInstalled (parse_setup_ini exL2w) ["p", "r"]).inst ∧
     "q" ∉ find_unknown_pkgs (buildInstalled (parse_setup_ini exL2w) ["p", "r"]).g
            (buildInstalled (parse_setup_ini exL2w) ["p", "r"]).inst) ∧
    "q" ∈ find_unknown_pkgs (buildInstalled (parse_setup_ini exL2) ["p", "r"]).g
            (buildInstalled (parse_setup_ini exL2) ["p", "r"]).inst :=
  ⟨⟨(c2_obsoletes exL2w ["p", "r"] "p" "q" (by decide) (by decide) (by decide)).1,
    (c2_obsoletes exL2w ["p", "r"] "p" "q" (by decide) (by decide) (by decide)).2.1 (by decide)⟩,
   (c2_obsoletes exL2 ["p", "r"] "p" "q" (by decide) (by decide) (by decide)).2.2
     (by decide) (by decide)⟩

/-- C2 counterexample: installed p depends on the obsoleted q, q is not
installed and has no record in the index; q is added to the installed set
and then appears in the unknown list of the broken report, which the claim
forbids. -/
theorem c2_counterexample :
    "q" ∈ (parse_setup_ini exL2).2 ∧
    "q" ∈ (aget? (parse_setup_ini exL2).1 "p").getD [] ∧
    "q" ∉ ["p", "r"] ∧
    hasKey (parse_setup_ini exL2).1 "q" = false ∧
    "q" ∈ (buildInstalled (parse_setup_ini exL2) ["p", "r"]).inst ∧
    "q" ∈ find_unknown_pkgs (buildInstalled (parse_setup_ini exL2) ["p", "r"]).g
            (buildInstalled (parse_setup_ini exL2) ["p", "r"]).inst := by
  decide

/-- C3 (amended): the Reverse Graph keys are exactly the vertex list it is
built over; the Working Graph keys are the extended dependency-graph keys
within that list; in all-packages mode the two vertex sets coincide, while
in installed mode they differ exactly on the members of Installed plus BASE
that lack a graph entry (such as BASE itself when no package has category
Base, or an extension-added obsoleted name with no record). -/
theorem c3_vertex_sets (lines : List (List Char)) (installed : List String) :
    (∀ k, hasKey (reverse (buildInstalled (parse_setup_ini lines) installed).g
            (buildInstalled (parse_setup_ini lines) installed).inst_plus_base) k = true ↔
          k ∈ (buildInstalled (parse_setup_ini lines) installed).inst_plus_base) ∧
    (∀ k, hasKey (buildInstalled (parse_setup_ini lines) installed).g k = true ↔
          (hasKey (buildInstalled (parse_setup_ini lines) installed).all_pkgs_graph k = true ∧
            k ∈ (buildInstalled (parse_setup_ini lines) installed).inst_plus_base)) ∧
    (∀ k, hasKey (buildAll (parse_setup_ini lines)).g k = true ↔
          hasKey (reverse (buildAll (parse_setup_ini lines)).g
            (buildAll (parse_setup_ini lines)).inst_plus_base) k = true) := by
  refine ⟨fun k => hasKey_reverse _ _ k, fun k => ?_, fun k => ?_⟩
  · unfold hasKey
    rw [aget?_buildInstalled_g]
    by_cases hk : k ∈ (buildInstalled (parse_setup_ini lines) installed).inst_plus_base
    · simp [hk]
    · simp [hk]
  · rw [hasKey_reverse]
    show hasKey (parse_setup_ini lines).1 k = true ↔ k ∈ keysOf (parse_setup_ini lines).1
    exact hasKey_mem_keysOf (parse_setup_ini lines).1 k

/-- C3 counterexample: on the empty index with installed list [A], BASE is a
key of the Reverse Graph but not of the Working Graph, so the two structures
do not share the same vertex set. -/
theorem c3_counterexample :
    hasKey (reverse (buildInstalled (parse_setup_ini []) ["A"]).g
      (buildInstalled (parse_setup_ini []) ["A"]).inst_plus_base) "BASE" = true ∧
    hasKey (buildInstalled (parse_setup_ini []) ["A"]).g "BASE" = false := by
  decide

/-- C5 (amended): a package-scoped query fails with the not-installed
diagnostic exactly when the target is absent from the extended installed
set, which contains the originally installed names and the obsoleted direct
dependencies of installed packages but never BASE (unless BASE is itself
installed or obsoleted); in particular a query targeting BASE fails even
though BASE is a Working-Graph vertex. -/
theorem c5_notfound (lines : List (List Char)) (installed : List String) (pkg : String) :
    (notFoundCheck (buildInstalled (parse_setup_ini lines) installed).inst pkg = true ↔
      ¬ (pkg ∈ installed ∨ ∃ p, p ∈ installed ∧
          pkg ∈ (aget? (parse_setup_ini lines).1 p).getD [] ∧
          pkg ∈ (parse_setup_ini lines).2)) ∧
    ("BASE" ∉ installed → "BASE" ∉ (parse_setup_ini lines).2 →
      notFoundCheck (buildInstalled (parse_setup_ini lines) installed).inst "BASE" = true) := by
  constructor
  · rw [notFoundCheck_iff]
    constructor
    · intro h hchar
      exact h ((mem_buildInstalled_inst (parse_setup_ini lines) installed pkg).mpr hchar)
    · intro h hmem
      exact h ((mem_buildInstalled_inst (parse_setup_ini lines) installed pkg).mp hmem)
  · intro h1 h2
    rw [notFoundCheck_iff]
    intro hmem
    rcases (mem_buildInstalled_inst (parse_setup_ini lines) installed "BASE").mp hmem with
      h | ⟨p, -, -, hS⟩
    · exact h1 h
    · exact h2 hS

/-- C5 witness: on an index with a Base package, the BASE query fails the
not-installed check. -/
theorem c5_witness :
    notFoundCheck (buildInstalled (parse_setup_ini exL5) ["b"]).inst "BASE" = true :=
  (c5_notfound exL5 ["b"] "BASE").2 (by decide) (by decide)

/-- C5 counterexample: BASE is a vertex of the Working Graph, yet the
scoped-query check rejects it, refuting failure iff absence from the vertex
set. -/
theorem c5_counterexample :
    hasKey (buildInstalled (parse_setup_ini exL5) ["b"]).g "BASE" = true ∧
    notFoundCheck (buildInstalled (parse_setup_ini exL5) ["b"]).inst "BASE" = true := by
  decide

/-- C9: every package of the externally supplied installed list is a key of
the Working Graph after construction, mapped to the empty dependency list
when it has no record in the index (the defaultdict side effect of the
obsoletes-extension pass), so a direct-requires query on it passes the
not-installed check and prints an empty result. -/
theorem c9_default_key (lines : List (List Char)) (installed : List String) (p : String)
    (hp : p ∈ installed) :
    p ∈ (buildInstalled (parse_setup_ini lines) installed).inst ∧
    hasKey (buildInstalled (parse_setup_ini lines) installed).g p = true ∧
    (hasKey (parse_setup_ini lines).1 p = false →
      aget? (buildInstalled (parse_setup_ini lines) installed).g p = some [] ∧
      query_requires (buildInstalled (parse_setup_ini lines) installed) p = []) := by
  have hinst : p ∈ (buildInstalled (parse_setup_ini lines) installed).inst :=
    (mem_buildInstalled_inst (parse_setup_ini lines) installed p).mpr (Or.inl hp)
  have hipb : p ∈ (buildInstalled (parse_setup_ini lines) installed).inst_plus_base := by
    rw [buildInstalled_ipb_eq]
    exact List.mem_append.mpr (Or.inl hinst)
  refine ⟨hinst, ?_, ?_⟩
  · unfold hasKey
    rw [aget?_buildInstalled_g, if_pos hipb, aget?_buildInstalled_allg]
    cases h : aget? (parse_setup_ini lines).1 p with
    | some v => simp
    | none => simp [hp]
  · intro hnokey
    have hnone : aget? (parse_setup_ini lines).1 p = none := by
      unfold hasKey at hnokey
      cases h : aget? (parse_setup_ini lines).1 p with
      | none => rfl
      | some v =>
        rw [h] at hnokey
        cases hnokey
    have hg : aget? (buildInstalled (parse_setup_ini lines) installed).g p = some [] := by
      rw [aget?_buildInstalled_g, if_pos hipb, aget?_buildInstalled_allg, hnone]
      simp [hp]
    refine ⟨hg, ?_⟩
    unfold query_requires
    rw [hg]
    rfl

/-- C9 witness: with an empty index and installed list [W], the package W is
a Working-Graph key with an empty list and the requires query prints
nothing. -/
theorem c9_witness :
    "W" ∈ (buildInstalled (parse_setup_ini []) ["W"]).inst ∧
    hasKey (buildInstalled (parse_setup_ini []) ["W"]).g "W" = true ∧
    aget? (buildInstalled (parse_setup_ini []) ["W"]).g "W" = some [] ∧
    query_requires (buildInstalled (parse_setup_ini []) ["W"]) "W" = [] := by
  have h := c9_default_key [] ["W"] "W" (by decide)
  exact ⟨h.1, h.2.1, (h.2.2 (by decide)).1, (h.2.2 (by decide)).2⟩

end CygcheckDep

namespace CygcheckDep

/-- C10: in both modes, every name in an adjacency list of the Reverse Graph
is itself a key of the Reverse Graph, so the transitive closure used by the
recursive-needs query never encounters a missing vertex and always
succeeds. -/
theorem c10_reverse_closed (lines : List (List Char)) (installed : List String) :
    (∀ k l y, aget? (reverse (buildInstalled (parse_setup_ini lines) installed).g
          (buildInstalled (parse_setup_ini lines) installed).inst_plus_base) k = some l →
        y ∈ l →
        hasKey (reverse (buildInstalled (parse_setup_ini lines) installed).g
          (buildInstalled (parse_setup_ini lines) installed).inst_plus_base) y = true) ∧
    exceptOk (tc (reverse (buildInstalled (parse_setup_ini lines) installed).g
      (buildInstalled (parse_setup_ini lines) installed).inst_plus_base)) = true ∧
    (∀ k l y, aget? (reverse (buildAll (parse_setup_ini lines)).g
          (buildAll (parse_setup_ini lines)).inst_plus_base) k = some l →
        y ∈ l →
        hasKey (reverse (buildAll (parse_setup_ini lines)).g
          (buildAll (parse_setup_ini lines)).inst_plus_base) y = true) ∧
    exceptOk (tc (reverse (buildAll (parse_setup_ini lines)).g
      (buildAll (parse_setup_ini lines)).inst_plus_base)) = true := by
  have hclosed1 : closedGraph (reverse (buildInstalled (parse_setup_ini lines) installed).g
      (buildInstalled (parse_setup_ini lines) installed).inst_plus_base) := by
    intro k l y h hy
    rw [hasKey_reverse]
    have hkey : hasKey (buildInstalled (parse_setup_ini lines) installed).g y = true :=
      reverse_vals_keys _ _ k l y h hy
    unfold hasKey at hkey
    rw [aget?_buildInstalled_g] at hkey
    by_cases hk : y ∈ (buildInstalled (parse_setup_ini lines) installed).inst_plus_base
    · exact hk
    · rw [if_neg hk] at hkey
      cases hkey
  have hclosed2 : closedGraph (reverse (buildAll (parse_setup_ini lines)).g
      (buildAll (parse_setup_ini lines)).inst_plus_base) := by
    intro k l y h hy
    rw [hasKey_reverse]
    have hkey : hasKey (buildAll (parse_setup_ini lines)).g y = true :=
      reverse_vals_keys _ _ k l y h hy
    show y ∈ keysOf (parse_setup_ini lines).1
    exact (hasKey_mem_keysOf (parse_setup_ini lines).1 y).mp hkey
  refine ⟨hclosed1, ?_, hclosed2, ?_⟩
  · rcases tc_ok _ hclosed1 with ⟨d, hd⟩
    rw [hd]
    rfl
  · rcases tc_ok _ hclosed2 with ⟨d, hd⟩
    rw [hd]
    rfl

/-- C10 witness: on the worked example, the closure of the reverse graph
succeeds in installed mode. -/
theorem c10_witness :
    exceptOk (tc (reverse (buildInstalled (parse_setup_ini exL7) ["A", "B"]).g
      (buildInstalled (parse_setup_ini exL7) ["A", "B"]).inst_plus_base)) = true :=
  (c10_reverse_closed exL7 ["A", "B"]).2.1

/-- C7: on the index where A requires B, B has category Base and installed
list [A, B]: direct requires of A is [B], recursive requires of A is [B],
direct needs of B is [A, BASE], and the leaves are [A]. -/
theorem c7_example :
    query_requires (buildInstalled (parse_setup_ini exL7) ["A", "B"]) "A" = ["B"] ∧
    query_Requires (buildInstalled (parse_setup_ini exL7) ["A", "B"]) "A" =
      Except.ok ["B"] ∧
    query_needs (buildInstalled (parse_setup_ini exL7) ["A", "B"]) "B" = ["A", "BASE"] ∧
    query_leaves (buildInstalled (parse_setup_ini exL7) ["A", "B"]) = ["A"] := by
  refine ⟨by decide, ?_, by decide, by decide⟩
  rfl

/-- C8 (amended): when p is the only package with a provides entry and its
first provided name v differs from p, resolution replaces every occurrence
of v in every dependency list by p and afterwards no dependency list
contains v; when another package also has a provides entry the claim fails
(see the counterexample). -/
theorem c8_provides (g : Dict) (p v : String) (vs : List String) (hpv : p ≠ v) :
    (∀ k, aget? (resolveProvides g [(p, v :: vs)]) k =
        (aget? g k).map (fun l => l.map (fun x => if x = v then p else x))) ∧
    (∀ k l, aget? (resolveProvides g [(p, v :: vs)]) k = some l → v ∉ l) := by
  have h1 : resolveProvides g [(p, v :: vs)] =
      g.map (fun e => (e.1, e.2.map (fun x => if x = v then p else x))) := rfl
  constructor
  · intro k
    rw [h1, aget?_mapVals]
  · intro k l hl
    rw [h1, aget?_mapVals] at hl
    cases hg : aget? g k with
    | none =>
      rw [hg] at hl
      cases hl
    | some l0 =>
      rw [hg] at hl
      injection hl with hl
      subst hl
      intro hv
      rcases List.mem_map.mp hv with ⟨x, -, hx⟩
      by_cases hxv : x = v
      · rw [if_pos hxv] at hx
        exact hpv hx
      · rw [if_neg hxv] at hx
        exact hxv hx

/-- C8 witness: with a single provider p of v, the dependency list holding v
is rewritten to hold p. -/
theorem c8_witness :
    aget? (resolveProvides [("a", ["v", "x"])] [("p", ["v"])]) "a" =
      (aget? [("a", ["v", "x"])] "a").map
        (fun l => l.map (fun x => if x = "v" then "p" else x)) :=
  (c8_provides [("a", ["v", "x"])] "p" "v" [] (by decide)).1 "a"

/-- C8 counterexample: p is the only package whose provides list has v as
its first entry, but v names a package with its own provides entry; after
resolution the dependency list of a contains v, which the claim rules out. -/
theorem c8_counterexample :
    (parseState exL8).h = [("p", ["v"]), ("v", ["w"])] ∧
    aget? (parse_setup_ini exL8).1 "a" = some ["v"] := by
  decide

/-- C4 (amended): an unsuppressed category line appends the current package
to the BASE list exactly when the anchored match succeeds, i.e. when the
value begins with the whole word Base (followed by the end of the value or
a non-word character); a match anywhere later in the value, as in Devel
Base, does not count, although it satisfies the contains-a-word reading of
the spec. -/
theorem c4_category (st : ParseState) (nm : String) (line value : List Char)
    (hname : st.name = some nm) (hdone : st.done_with_entry = false)
    (hat : matchAt line = none)
    (hprev : prevTag.isPrefixOf line = false) (htest : testTag.isPrefixOf line = false)
    (hkw : matchKeyword line = some ("category", value)) :
    (processLine st line).g =
      (if matchesBase value = true then dappend st.g "BASE" nm else st.g) ∧
    (matchesBase value = true → specValueContainsWordBase value = true) := by
  constructor
  · unfold processLine
    rw [hat]
    simp only [hdone, hprev, htest, Bool.or_self, if_false, hkw]
    unfold handleKeyword
    cases hmb : matchesBase value with
    | true => simp [hmb, hname]
    | false => simp [hmb]
  · intro hmb
    unfold specValueContainsWordBase
    cases value with
    | nil =>
      rw [matchesBase] at hmb
      cases hmb
    | cons c rest =>
      unfold containsWordBaseAux
      rw [matchesBase] at hmb
      simp [hmb]

/-- C4 witness: a category value beginning with the word Base is recorded. -/
theorem c4_witness :
    (processLine ⟨[("a", [])], [], [], some "a", false⟩ ("category: Base Devel".toList)).g =
      (if matchesBase ("Base Devel".toList) = true
       then dappend [("a", [])] "BASE" "a" else [("a", [])]) ∧
    (matchesBase ("Base Devel".toList) = true →
      specValueContainsWordBase ("Base Devel".toList) = true) :=
  c4_category ⟨[("a", [])], [], [], some "a", false⟩ "a" ("category: Base Devel".toList)
    ("Base Devel".toList) rfl rfl (by decide) (by decide) (by decide) (by decide)

/-- C4 counterexample: the value Devel Base contains the whole word Base,
yet parsing an index whose category line carries that value records no BASE
member at all - the match is anchored at the start of the value. -/
theorem c4_counterexample :
    specValueContainsWordBase ("Devel Base".toList) = true ∧
    hasKey (parse_setup_ini exL4).1 "BASE" = false := by
  decide

/-- C6 witness: on the two-vertex cycle with an isolated third vertex, the
hypotheses of the island theorem hold for the reverse topologically ordered
SCC list, and the islands query returns exactly the cycle. -/
theorem c6_witness :
    find_islands exG6 exSccs6 =
      exSccs6.filter (fun c => decide (1 < c.length) && noIncomingCross exG6 c) ∧
    find_islands exG6 exSccs6 = [["Y", "X"]] := by
  constructor
  · exact c6_islands exG6 exSccs6 (by decide) (by decide) (by decide) (by decide)
      (by decide) (by decide) (by decide)
  · decide

end CygcheckDep
